import Mathlib

/-!
Shallow embedding of `src/shor_algm.py` (repository SHOR-PY).

The program builds a fixed "Shor-style" quantum circuit with qiskit and
classically post-processes the measurement distribution, scanning for a
candidate integer in a caller-supplied range whose SHA-256 → RIPEMD-160
hex digest equals a hard-coded target string.

Modelling decisions:
* Circuits are data: a gate list together with declared qubit/clbit counts.
  Controlled-phase angles are stored as the exact rational coefficient of π
  (the source passes `np.pi / float(2 ** (j - k))`, i.e. coefficient
  `1 / 2 ^ (j - k)`), keeping every definition executable.
* The qiskit simulator backend and the `hashlib` digest primitives are
  external collaborators (spec §1, §6).  The simulator output is therefore a
  parameter (the list of observed bit-string keys, in the distribution's key
  order), and the two digest primitives are fields of a `HashPrimitives`
  record; everything the repository itself computes is embedded faithfully.
* Python ints are ℕ: every integer in the program's reachable states is
  non-negative, and no overflow exists in Python.
-/

/-- Quantum gates appearing in the source.  `cp theta c t` is a controlled
phase gate whose rotation angle is `theta * π` radians (`theta : ℚ` is the
exact coefficient of π passed by the source).  `measureg q c` measures qubit
`q` into classical bit `c`. -/
inductive Gate where
  | h (q : Nat)
  | x (q : Nat)
  | cx (c t : Nat)
  | cp (theta : ℚ) (c t : Nat)
  | measureg (q c : Nat)
  deriving DecidableEq, Repr

/-- A circuit: declared register sizes plus the ordered gate list, mirroring
`qiskit.QuantumCircuit(numQubits, numClbits)` with gates appended in order. -/
structure Circuit where
  numQubits : Nat
  numClbits : Nat
  gates : List Gate
  deriving DecidableEq, Repr

/-- `modular_exp(base, exp, mod, bit_length)` from the source: a circuit on
`bit_length + 1` qubits consisting of `exp` repetitions of `cx 0 1`
(`for _ in range(exp): qc.cx(0, 1)`).  The `base` and `mod` arguments are
accepted but never used, exactly as in the source. -/
def modular_exp (base exp mod bit_length : Nat) : Circuit :=
  { numQubits := bit_length + 1
    numClbits := 0
    gates := (List.range exp).foldl (fun gs _ => gs ++ [Gate.cx 0 1]) [] }

/-- `qft(n)` from the source: for each `j` in `range(n)`, append `h j`, then
for each `k` in `range(j)` append `cp (π / 2^(j-k)) k j`; the stored angle
coefficient is `1 / 2 ^ (j - k)`. -/
def qft (n : Nat) : Circuit :=
  { numQubits := n
    numClbits := 0
    gates :=
      (List.range n).foldl
        (fun gs j =>
          (List.range j).foldl
            (fun gs2 k => gs2 ++ [Gate.cp (1 / 2 ^ (j - k)) k j])
            (gs ++ [Gate.h j]))
        [] }

/-- `grover_amplification(n)` from the source: for each `q` in `range(n)`,
append `h q`, `x q`, `h q`. -/
def grover_amplification (n : Nat) : Circuit :=
  { numQubits := n
    numClbits := 0
    gates := (List.range n).foldl (fun gs q => gs ++ [Gate.h q, Gate.x q, Gate.h q]) [] }

/-- One stage of the built circuit: its name, the sub-circuit appended (for
inline gate batches, the equivalent sub-circuit), and the main-circuit qubit
indices it is applied to. -/
structure AppliedStage where
  name : String
  sub : Circuit
  qargs : List Nat
  deriving DecidableEq, Repr

/-- The declared register width of a stage: the qubit count of its
sub-circuit. -/
def stageWidth (s : AppliedStage) : Nat :=
  s.sub.numQubits

/-- The whole construction produced by `optimized_ecd_log`: register sizes of
the main circuit and the ordered stage list. -/
structure ShorCircuit where
  numQubits : Nat
  numClbits : Nat
  stages : List AppliedStage
  deriving DecidableEq, Repr

/-- The inline Hadamard batch `qc.h(range(n))` viewed as a sub-circuit on `n`
qubits. -/
def hadamard_stage (n : Nat) : Circuit :=
  { numQubits := n, numClbits := 0, gates := (List.range n).map Gate.h }

/-- The final `qc.measure(range(n), range(n))` batch viewed as a sub-circuit. -/
def measure_stage (n : Nat) : Circuit :=
  { numQubits := n, numClbits := n,
    gates := (List.range n).map (fun i => Gate.measureg i i) }

/-- `optimized_ecd_log(p, g, y, bit_length)` from the source:
`n_count = bit_length` counting qubits plus one extra qubit; stages are the
Hadamard batch on `range(n_count)`, then for each `q` in `range(n_count)` the
oracle `modular_exp(g, 2**q, p, bit_length)` applied to `range(n_count + 1)`,
then `qft(n_count)`, `grover_amplification(n_count)`, and measurement, each on
`range(n_count)`.  The argument `y` is accepted but never used, as in the
source. -/
def optimized_ecd_log (p g y bit_length : Nat) : ShorCircuit :=
  let n_count := bit_length
  { numQubits := n_count + 1
    numClbits := n_count
    stages :=
      [⟨"hadamard", hadamard_stage n_count, List.range n_count⟩]
        ++ (List.range n_count).map
            (fun q => ⟨"oracle", modular_exp g (2 ^ q) p bit_length,
                       List.range (n_count + 1)⟩)
        ++ [⟨"fourier", qft n_count, List.range n_count⟩,
            ⟨"amplify", grover_amplification n_count, List.range n_count⟩,
            ⟨"measure", measure_stage n_count, List.range n_count⟩] }

/-- External hash collaborators (spec §6): `digest(bytes) → bytes` for the
256-bit primary hash (`hashlib.sha256`) and the 160-bit secondary hash
(`hashlib.new('ripemd160', ...)`), both out of scope for the repository
itself.  Bytes are lists of naturals below 256. -/
structure HashPrimitives where
  sha256 : List Nat → List Nat
  ripemd160 : List Nat → List Nat

/-- Lowercase hexadecimal digit, as produced by Python `bytes.hex()`. -/
def hexDigit (n : Nat) : Char :=
  if n < 10 then Char.ofNat (48 + n) else Char.ofNat (87 + n)

/-- One byte as two lowercase hex characters. -/
def byteToHex (b : Nat) : List Char :=
  [hexDigit (b / 16), hexDigit (b % 16)]

/-- Python `bytes.hex()`: lowercase hex string of a byte sequence. -/
def bytesToHex (bs : List Nat) : String :=
  String.mk (bs.foldr (fun b cs => byteToHex b ++ cs) [])

/-- `ripemd160_hash(data)` from the source: SHA-256 of `data`, then
RIPEMD-160 of that digest, then `.hex()`. -/
def ripemd160_hash (P : HashPrimitives) (data : List Nat) : String :=
  bytesToHex (P.ripemd160 (P.sha256 data))

/-- The hard-coded target digest string compared against in
`solve_ecd_log`. -/
def TARGET_HASH : String :=
  "739437bb3dd6d1983e66629c5f08c70e52769371"

/-- `bytes.fromhex(f"{c:064x}")` from the source: the candidate as a
zero-padded big-endian 32-byte sequence.  Faithful for `c < 256 ^ 32`; every
candidate the program produces is below `2 ^ 67`. -/
def pubKeyBytes (c : Nat) : List Nat :=
  (List.range 32).map (fun i => c / 256 ^ (31 - i) % 256)

/-- `int(measured_key, 2)`: a measured bit-string parsed as a big-endian
binary numeral. -/
def bitsToNat (bs : List Bool) : Nat :=
  bs.foldl (fun a b => 2 * a + (if b then 1 else 0)) 0

/-- The accept test applied to an in-range candidate, as a Boolean: the
range check and the digest comparison `hashed_key == TARGET`. -/
def acceptB (P : HashPrimitives) (target : String) (s e c : Nat) : Bool :=
  decide (s ≤ c) && decide (c ≤ e) && decide (ripemd160_hash P (pubKeyBytes c) = target)

/-- The candidate loop of `solve_ecd_log`: iterate the observed keys in
order; for each, parse the integer, and when it lies in
`[start_range, end_range]` and its digest equals `target`, return it;
otherwise continue; return `none` when the keys are exhausted. -/
def scanKeys (P : HashPrimitives) (target : String) (start_range end_range : Nat) :
    List (List Bool) → Option Nat
  | [] => none
  | k :: rest =>
    let c := bitsToNat k
    if start_range ≤ c ∧ c ≤ end_range then
      if ripemd160_hash P (pubKeyBytes c) = target then some c
      else scanKeys P target start_range end_range rest
    else scanKeys P target start_range end_range rest

/-- `solve_ecd_log(p, g, y, start_range, end_range)` from the source:
builds the 67-qubit-counting circuit, runs the external simulator (its
output — the distribution's keys in key order — is the parameter
`counts_keys`), then scans the keys against the stored target digest. -/
def solve_ecd_log (P : HashPrimitives) (p g y start_range end_range : Nat)
    (counts_keys : List (List Bool)) : Option Nat :=
  let bit_length := 67
  let _qc := optimized_ecd_log p g y bit_length
  scanKeys P TARGET_HASH start_range end_range counts_keys

/-- Classical basis-state action of one gate, defined for the classical
(permutation) gates `x` and `cx`; `none` for the non-classical gates. -/
def classicalGateAction : Gate → List Bool → Option (List Bool)
  | Gate.x q, s => some (s.set q (!(s.getD q false)))
  | Gate.cx c t, s => some (if s.getD c false then s.set t (!(s.getD t false)) else s)
  | _, _ => none

/-- Classical basis-state action of a gate list, when every gate is
classical. -/
def classicalAction (gs : List Gate) (s : List Bool) : Option (List Bool) :=
  gs.foldlM (fun st g => classicalGateAction g st) s

/-- The map the specification requires the oracle to implement (spec §4.2):
`workRegister ↦ workRegister · base^{exponentStep} mod modulus`.  This
definition follows the spec's words, for comparison with `modular_exp`. -/
def specOracleMap (base exponentStep modulus w : Nat) : Nat :=
  w * base ^ exponentStep % modulus

/-- The 20 bytes whose lowercase hex encoding is the stored target digest;
used to build a concrete hash collaborator for witnesses. -/
def targetBytes : List Nat :=
  [0x73, 0x94, 0x37, 0xbb, 0x3d, 0xd6, 0xd1, 0x98, 0x3e, 0x66,
   0x62, 0x9c, 0x5f, 0x08, 0xc7, 0x0e, 0x52, 0x76, 0x93, 0x71]

/-- A concrete instantiation of the external hash collaborators whose final
digest always equals the stored target, used to witness reachable `some`
results of the scan. -/
def constPrims : HashPrimitives :=
  { sha256 := fun d => d, ripemd160 := fun _ => targetBytes }

/- ------------------------------------------------------------------ -/
/- Helper lemmas (shared; none is a claim's theorem or witness).      -/
/- ------------------------------------------------------------------ -/

/-- A left fold that appends one element per step is the accumulator followed
by the mapped list. -/
theorem foldl_append_map {α β : Type} (f : α → β) :
    ∀ (l : List α) (acc : List β),
      l.foldl (fun a x => a ++ [f x]) acc = acc ++ l.map f := by
  intro l
  induction l with
  | nil => intro acc; simp
  | cons x xs ih => intro acc; simp [ih, List.append_assoc]

/-- A left fold that appends a block per step is the accumulator followed by
the concatenation of the blocks. -/
theorem foldl_append_bind {α β : Type} (f : α → List β) :
    ∀ (l : List α) (acc : List β),
      l.foldl (fun a x => a ++ f x) acc = acc ++ l.flatMap f := by
  intro l
  induction l with
  | nil => intro acc; simp
  | cons x xs ih => intro acc; simp [ih, List.append_assoc]

/-- The oracle circuit's gate list is `exp` copies of `cx 0 1`. -/
theorem modular_exp_gates (b e m w : Nat) :
    (modular_exp b e m w).gates = List.replicate e (Gate.cx 0 1) := by
  show (List.range e).foldl (fun gs _ => gs ++ [Gate.cx 0 1]) [] = _
  rw [foldl_append_map (fun _ => Gate.cx 0 1)]
  simp [List.map_const', List.eq_replicate_iff]

/-- The candidate loop is a first-match search over the parsed keys. -/
theorem scanKeys_eq_find (P : HashPrimitives) (target : String) (s e : Nat) :
    ∀ keys : List (List Bool),
      scanKeys P target s e keys = (keys.map bitsToNat).find? (acceptB P target s e) := by
  intro keys
  induction keys with
  | nil => rfl
  | cons k rest ih =>
    show scanKeys P target s e (k :: rest) = _
    rw [List.map_cons, List.find?_cons]
    by_cases h1 : s ≤ bitsToNat k ∧ bitsToNat k ≤ e
    · by_cases h2 : ripemd160_hash P (pubKeyBytes (bitsToNat k)) = target
      · have ha : acceptB P target s e (bitsToNat k) = true := by
          simp [acceptB, h1.1, h1.2, h2]
        simp [scanKeys, h1, h2, ha]
      · have ha : acceptB P target s e (bitsToNat k) = false := by
          simp [acceptB, h2]
        simp [scanKeys, h1, h2, ha, ih]
    · have ha : acceptB P target s e (bitsToNat k) = false := by
        rcases Decidable.not_and_iff_or_not.mp h1 with h | h <;> simp [acceptB, h]
      simp [scanKeys, h1, ha, ih]

/-- Big-endian base-256 digit recombination for a fixed width. -/
theorem beFoldRecomb :
    ∀ (w c a : Nat),
      ((List.range w).map (fun i => c / 256 ^ (w - 1 - i) % 256)).foldl
          (fun x d => 256 * x + d) a
        = a * 256 ^ w + c % 256 ^ w := by
  intro w
  induction w with
  | zero => intro c a; simp [Nat.mod_one]
  | succ w ih =>
    intro c a
    rw [List.range_succ_eq_map]
    simp only [List.map_cons, List.map_map, List.foldl_cons]
    have harg : ((fun i => c / 256 ^ (w + 1 - 1 - i) % 256) ∘ Nat.succ)
        = fun i => c / 256 ^ (w - 1 - i) % 256 := by
      funext i
      have h2 : w + 1 - 1 - Nat.succ i = w - 1 - i := by omega
      simp only [Function.comp_apply, h2]
    rw [harg, ih]
    have hw : w + 1 - 1 - 0 = w := by omega
    rw [hw, pow_succ, Nat.mod_mul]
    ring

/- ------------------------------------------------------------------ -/
/- Claim theorems.                                                    -/
/- ------------------------------------------------------------------ -/

/-- C1: the range-scan solve operation iterates the observed bit-strings in
the distribution's key order, converts each to an integer, and returns the
first candidate lying in `[start_range, end_range]` whose verification digest
equals the stored target; when every observed candidate fails the check it
returns `none` (NotFound), a legitimate terminal outcome, not an error. -/
theorem solve_scans_keys_in_order (P : HashPrimitives) (p g y s e : Nat)
    (keys : List (List Bool)) :
    solve_ecd_log P p g y s e keys
        = (keys.map bitsToNat).find? (acceptB P TARGET_HASH s e)
      ∧ (solve_ecd_log P p g y s e keys = none
          ↔ (keys.map bitsToNat).all (fun c => !acceptB P TARGET_HASH s e c) = true) := by
  have h := scanKeys_eq_find P TARGET_HASH s e keys
  refine ⟨h, ?_⟩
  show scanKeys P TARGET_HASH s e keys = none ↔ _
  rw [h, List.find?_eq_none, List.all_eq_true]
  constructor
  · intro hn c hc
    simp [hn c hc]
  · intro hn c hc
    have := hn c hc
    simp at this
    simp [this]

/-- C2: at the failing input `(base, exponentStep, modulus, width) =
(2, 1, 3, 2)` the oracle constructor emits a single `cx 0 1` gate; the
produced circuit is identical for other bases and moduli, and its classical
basis-state action leaves the work qubit (the last qubit) unchanged, whereas
the map required by the specification, `w ↦ w · 2^1 mod 3`, moves the work
value 1 to 2. -/
theorem modular_exp_placeholder_at_failing_input :
    modular_exp 2 1 3 2 = { numQubits := 3, numClbits := 0, gates := [Gate.cx 0 1] }
      ∧ modular_exp 2 1 3 2 = modular_exp 7 1 11 2
      ∧ (∀ b0 b1 b2 : Bool,
          classicalAction (modular_exp 2 1 3 2).gates [b0, b1, b2]
            = some [b0, xor b1 b0, b2])
      ∧ specOracleMap 2 1 3 1 ≠ 1 := by
  refine ⟨by decide, rfl, ?_, by decide⟩
  intro b0 b1 b2
  cases b0 <;> cases b1 <;> rfl

/-- C3: range-scan mode never returns a candidate outside
`[start_range, end_range]`: every non-`none` result of `solve_ecd_log`
satisfies `start_range ≤ candidate ≤ end_range`. -/
theorem solve_result_in_range (P : HashPrimitives) (p g y s e : Nat)
    (keys : List (List Bool)) (c : Nat)
    (h : solve_ecd_log P p g y s e keys = some c) : s ≤ c ∧ c ≤ e := by
  have hf : (keys.map bitsToNat).find? (acceptB P TARGET_HASH s e) = some c := by
    rw [← scanKeys_eq_find P TARGET_HASH s e keys]
    exact h
  have ha := List.find?_some hf
  simp only [acceptB, Bool.and_eq_true, decide_eq_true_eq] at ha
  exact ⟨ha.1.1, ha.1.2⟩

/-- C3 witness: a concrete scan that returns candidate 1 under range
`[0, 5]`, whose bounds the theorem then certifies. -/
theorem solve_result_in_range_witness : 0 ≤ 1 ∧ 1 ≤ 5 :=
  solve_result_in_range constPrims 0 0 0 0 5 [[true]] 1 (by decide)

/-- C4: any candidate accepted by the scan has its two-stage digest — the
256-bit primary hash, then the 160-bit secondary hash of that output,
hex-encoded — exactly equal (string equality, hence case-sensitive, no
partial match) to the stored target digest. -/
theorem verifier_two_stage_exact (P : HashPrimitives) (p g y s e : Nat)
    (keys : List (List Bool)) (c : Nat)
    (h : solve_ecd_log P p g y s e keys = some c) :
    ripemd160_hash P (pubKeyBytes c) = TARGET_HASH
      ∧ ripemd160_hash P (pubKeyBytes c)
          = bytesToHex (P.ripemd160 (P.sha256 (pubKeyBytes c))) := by
  have hf : (keys.map bitsToNat).find? (acceptB P TARGET_HASH s e) = some c := by
    rw [← scanKeys_eq_find P TARGET_HASH s e keys]
    exact h
  have ha := List.find?_some hf
  simp only [acceptB, Bool.and_eq_true, decide_eq_true_eq] at ha
  exact ⟨ha.2, rfl⟩

/-- C4 witness: a concrete accepted candidate (2) whose digest equality the
theorem certifies. -/
theorem verifier_two_stage_exact_witness :
    ripemd160_hash constPrims (pubKeyBytes 2) = TARGET_HASH
      ∧ ripemd160_hash constPrims (pubKeyBytes 2)
          = bytesToHex (constPrims.ripemd160 (constPrims.sha256 (pubKeyBytes 2))) :=
  verifier_two_stage_exact constPrims 0 0 0 0 5 [[true, false]] 2 (by decide)

/-- C5 counterexample: the encoding the verifier actually applies to the
candidate `2^66` (the bottom of the 67-bit range) is 32 bytes wide, not
`ceil(67/8) = 9` bytes as claimed. -/
theorem encoding_width_counterexample :
    (pubKeyBytes 73786976294838206464).length = 32
      ∧ (pubKeyBytes 73786976294838206464).length ≠ 9 := by
  constructor <;> simp [pubKeyBytes]

/-- C5 amended: the verifier canonically encodes the candidate as a
zero-padded big-endian fixed-width byte sequence of 32 bytes (64 hex
digits): all bytes are below 256 and big-endian recombination recovers the
candidate. -/
theorem pubKeyBytes_canonical (c : Nat) (h : c < 256 ^ 32) :
    (pubKeyBytes c).length = 32
      ∧ (∀ b ∈ pubKeyBytes c, b < 256)
      ∧ (pubKeyBytes c).foldl (fun a b => 256 * a + b) 0 = c := by
  refine ⟨by simp [pubKeyBytes], ?_, ?_⟩
  · intro b hb
    simp only [pubKeyBytes, List.mem_map, List.mem_range] at hb
    obtain ⟨i, _, rfl⟩ := hb
    exact Nat.mod_lt _ (by norm_num)
  · have hr := beFoldRecomb 32 c 0
    have : (pubKeyBytes c).foldl (fun a b => 256 * a + b) 0
        = 0 * 256 ^ 32 + c % 256 ^ 32 := hr
    rw [this, Nat.zero_mul, Nat.zero_add, Nat.mod_eq_of_lt h]

/-- C5 amended witness: the canonical-encoding properties at the concrete
candidate 3. -/
theorem pubKeyBytes_canonical_witness :
    (pubKeyBytes 3).length = 32
      ∧ (∀ b ∈ pubKeyBytes 3, b < 256)
      ∧ (pubKeyBytes 3).foldl (fun a b => 256 * a + b) 0 = 3 :=
  pubKeyBytes_canonical 3 (by norm_num)

/-- C6 counterexample: at `(p, g, y, width) = (5, 2, 3, 2)` not every stage
of the built circuit has declared register width equal to `counting_width`
(each oracle stage spans `counting_width + 1` qubits). -/
theorem stage_width_counterexample :
    ¬ ∀ s ∈ (optimized_ecd_log 5 2 3 2).stages, stageWidth s = 2 := by
  decide

/-- C6 amended: in the built circuit the Hadamard, Fourier, amplification
and measurement stages each have declared register width `counting_width`,
while each of the `counting_width` oracle stages has declared width
`counting_width + 1` (counting register plus the single work qubit). -/
theorem stage_widths_amended (p g y n : Nat) :
    (optimized_ecd_log p g y n).stages.map stageWidth
      = n :: (List.replicate n (n + 1) ++ [n, n, n]) := by
  simp [optimized_ecd_log, stageWidth, hadamard_stage, measure_stage, qft,
    grover_amplification, modular_exp, List.map_const', List.eq_replicate_iff]

/-- C7 counterexample: at non-positive counting width 0 and non-positive
modulus 0 the construction does not fail: it returns a degenerate circuit
(one qubit, all stages empty) with no error of any kind. -/
theorem no_validation_counterexample :
    optimized_ecd_log 0 0 0 0
      = { numQubits := 1, numClbits := 0,
          stages :=
            [⟨"hadamard", ⟨0, 0, []⟩, []⟩, ⟨"fourier", ⟨0, 0, []⟩, []⟩,
             ⟨"amplify", ⟨0, 0, []⟩, []⟩, ⟨"measure", ⟨0, 0, []⟩, []⟩] } := by
  decide

/-- C7 amended: circuit construction performs no input validation: with
counting width 0 it silently returns the degenerate one-qubit circuit for
every modulus, and with modulus 0 it still builds the full stage list. -/
theorem construction_never_fails (p g y : Nat) :
    optimized_ecd_log p g y 0
        = { numQubits := 1, numClbits := 0,
            stages :=
              [⟨"hadamard", ⟨0, 0, []⟩, []⟩, ⟨"fourier", ⟨0, 0, []⟩, []⟩,
               ⟨"amplify", ⟨0, 0, []⟩, []⟩, ⟨"measure", ⟨0, 0, []⟩, []⟩] }
      ∧ ∀ g2 y2 n : Nat, (optimized_ecd_log 0 g2 y2 n).stages.length = n + 4 := by
  constructor
  · rfl
  · intro g2 y2 n
    simp [optimized_ecd_log]

/-- C8: for every width `n`, the forward Fourier stage applies, for each
position `j` from 0 to `n-1`, a Hadamard on `j` followed by a controlled
phase between each earlier position `k < j` and `j` with angle exactly
`π / 2^(j-k)` (angle coefficient of π stored exactly as `1 / 2^(j-k)`). -/
theorem qft_structure (n : Nat) :
    qft n
      = { numQubits := n, numClbits := 0,
          gates := (List.range n).flatMap
            (fun j => Gate.h j :: (List.range j).map
              (fun k => Gate.cp (1 / 2 ^ (j - k)) k j)) } := by
  have hg : (qft n).gates
      = (List.range n).flatMap
          (fun j => Gate.h j :: (List.range j).map
            (fun k => Gate.cp (1 / 2 ^ (j - k)) k j)) := by
    show (List.range n).foldl
        (fun gs j =>
          (List.range j).foldl
            (fun gs2 k => gs2 ++ [Gate.cp (1 / 2 ^ (j - k)) k j])
            (gs ++ [Gate.h j]))
        [] = _
    have hbody : (fun (gs : List Gate) (j : Nat) =>
          (List.range j).foldl
            (fun gs2 k => gs2 ++ [Gate.cp (1 / 2 ^ (j - k)) k j])
            (gs ++ [Gate.h j]))
        = fun gs j => gs ++ (Gate.h j :: (List.range j).map
            (fun k => Gate.cp (1 / 2 ^ (j - k)) k j)) := by
      funext gs j
      rw [foldl_append_map (fun k => Gate.cp (1 / 2 ^ (j - k)) k j)]
      simp
    rw [hbody, foldl_append_bind]
    simp
  show qft n = _
  cases hq : qft n
  simp only [qft] at hq
  cases hq
  simp only [Circuit.mk.injEq, true_and]
  exact hg

/-- C9: verifier hash comparison is deterministic: equal candidates always
yield the identical digest string and the identical accept/reject decision
against a fixed target and range. -/
theorem verifier_deterministic (P : HashPrimitives) (t : String) (s e c1 c2 : Nat)
    (h : c1 = c2) :
    ripemd160_hash P (pubKeyBytes c1) = ripemd160_hash P (pubKeyBytes c2)
      ∧ acceptB P t s e c1 = acceptB P t s e c2 := by
  subst h
  exact ⟨rfl, rfl⟩

/-- C9 witness: determinism at the concrete candidate 4. -/
theorem verifier_deterministic_witness :
    ripemd160_hash constPrims (pubKeyBytes 4) = ripemd160_hash constPrims (pubKeyBytes 4)
      ∧ acceptB constPrims TARGET_HASH 0 5 4 = acceptB constPrims TARGET_HASH 0 5 4 :=
  verifier_deterministic constPrims TARGET_HASH 0 5 4 4 rfl

/-- C10: the constructed circuit and the solve result are independent of the
problem parameters `p`, `g`, `y`: the oracle constructor ignores its base
and modulus arguments, the builder yields gate-for-gate identical circuits
for any two parameter triples, and on the same measurement distribution the
solve operation returns the same result. -/
theorem params_independent :
    (∀ b1 m1 b2 m2 e w : Nat, modular_exp b1 e m1 w = modular_exp b2 e m2 w)
      ∧ (∀ p1 g1 y1 p2 g2 y2 w : Nat,
          optimized_ecd_log p1 g1 y1 w = optimized_ecd_log p2 g2 y2 w)
      ∧ (∀ (P : HashPrimitives) (p1 g1 y1 p2 g2 y2 s e : Nat)
          (keys : List (List Bool)),
          solve_ecd_log P p1 g1 y1 s e keys = solve_ecd_log P p2 g2 y2 s e keys) :=
  ⟨fun _ _ _ _ _ _ => rfl, fun _ _ _ _ _ _ _ => rfl,
   fun _ _ _ _ _ _ _ _ _ _ => rfl⟩
